import Mathlib

/-!
Verification of the delivery-plan generation engine of the
DreamArts 42Tokyo-Tuning-2509 backend.

Source of truth:
* `src/webapp/backend/internal/service/robot.go`
  (`GenerateDeliveryPlan`, `selectOrdersForDeliveryOptimized`,
   `selectOrdersDP`, `selectOrdersGreedy`)
* `src/webapp/backend/internal/repository/order.go`
  (`UpdateStatuses`, `GetShippingOrders`)

Modelling conventions:
* Go `int` is modelled as `Int` (unbounded); every quantity handled by the
  claims (weights, values, capacities, their sums) is assumed to stay below
  2^63, where Go's 64-bit arithmetic agrees with `Int`.
* Go slices indexed by weight are modelled as total functions `Int → Int`
  (the DP value array) and `Int → Bool` (one row of the `keep` table);
  a separate access-checked model (`selectOrdersDPChecked`) models every
  slice access explicitly with `Option`, to settle the bounds-safety claim.
* A Go `context.Context` whose deadline has already elapsed (or which was
  already canceled) is modelled by a boolean `ctxDone`; `ctx.Err()` is the
  error `GoErr.ctxErr`.
* Fallible Go functions returning `(T, error)` are modelled as
  `Except GoErr T`.
-/

/-- An order as fetched by `GetShippingOrders` (order id plus the joined
product's weight and value), `model.Order` restricted to the fields the
planner reads. -/
structure Order where
  orderID : Int
  weight  : Int
  value   : Int
  deriving Repr, DecidableEq, Inhabited

/-- Go struct `model.DeliveryPlan`. -/
structure DeliveryPlan where
  robotID     : String
  totalWeight : Int
  totalValue  : Int
  orders      : List Order
  deriving Repr, DecidableEq, Inhabited

/-- Errors surfaced by the Go code: a context cancellation (`ctx.Err()`)
or a storage-layer error. -/
inductive GoErr where
  | ctxErr
  | dbErr (msg : String)
  deriving Repr, DecidableEq

def sumWeight (os : List Order) : Int := (os.map Order.weight).sum

def sumValue (os : List Order) : Int := (os.map Order.value).sum

/-- Pointwise update of the modelled `dp` slice: `dp[w] = x`. -/
def updF (f : Int → Int) (w x : Int) : Int → Int :=
  fun j => if j = w then x else f j

/-- Pointwise update of a modelled `keep` row: `keep[i][w] = true`. -/
def updB (f : Int → Bool) (w : Int) : Int → Bool :=
  fun j => if j = w then true else f j

/-- The inner loop of `selectOrdersDP`
(`for w := robotCapacity; w >= order.Weight; w--`), desugared to structural
recursion on the number `k` of remaining iterations; with `k` iterations
left the current loop index is `w = wt + k - 1`.  Each iteration computes
`includeValue := dp[w-order.Weight] + order.Value` and, when it strictly
beats `dp[w]`, writes `dp[w]` and `keep[i][w]`. -/
def innerGo (wt v : Int) : Nat → (Int → Int) → (Int → Bool) → (Int → Int) × (Int → Bool)
  | 0, dp, row => (dp, row)
  | k + 1, dp, row =>
    if dp (wt + k) < dp (wt + k - wt) + v then
      innerGo wt v k (updF dp (wt + k) (dp (wt + k - wt) + v)) (updB row (wt + k))
    else
      innerGo wt v k dp row

/-- One full inner-loop pass of `selectOrdersDP` for an order of weight `wt`
and value `v`, at capacity `c`: iterates `w` from `c` down to `wt`,
i.e. `(c + 1 - wt).toNat` iterations. -/
def dpInner (wt v c : Int) (dp : Int → Int) (row : Int → Bool) : (Int → Int) × (Int → Bool) :=
  innerGo wt v (c + 1 - wt).toNat dp row

/-- The outer loop of `selectOrdersDP` (`for i := 1; i <= n; i++`): at the
start of iteration `i`, when `i % 50 == 0`, the Go code polls
`ctx.Done()` and returns `ctx.Err()` if the context is done; otherwise it
runs the inner pass for `orders[i-1]` and records that order's `keep` row. -/
def dpOuter (ctxDone : Bool) (c : Int) :
    List Order → Nat → (Int → Int) → List (Int → Bool) →
    Except GoErr ((Int → Int) × List (Int → Bool))
  | [], _, dp, rows => Except.ok (dp, rows)
  | o :: rest, i, dp, rows =>
    if i % 50 = 0 ∧ ctxDone = true then
      Except.error GoErr.ctxErr
    else
      let p := dpInner o.weight o.value c dp (fun _ => false)
      dpOuter ctxDone c rest (i + 1) p.1 (rows ++ [p.2])

/-- The backtracking loop of `selectOrdersDP`
(`for i := n; i > 0 && w > 0; i--`): whenever `keep[i][w]` holds, the order
`orders[i-1]` is prepended to the selection (the Go slice is appended in
decreasing `i`), the budget `w` drops by its weight and the running total
weight grows by it.  `rows` holds the `keep` rows for steps `1..n` at
positions `0..n-1`. -/
def backtrack (orders : List Order) (rows : List (Int → Bool)) : Nat → Int → List Order × Int
  | 0, _ => ([], 0)
  | i + 1, w =>
    if 0 < w then
      if rows.getD i (fun _ => false) w then
        let o := orders.getD i default
        let p := backtrack orders rows i (w - o.weight)
        (o :: p.1, o.weight + p.2)
      else
        backtrack orders rows i w
    else ([], 0)

/-- Function `selectOrdersDP` from robot.go: run the DP table fill (aborting with
`ctx.Err()` at a hit cancellation checkpoint), then backtrack from
`(n, robotCapacity)`; the reported total value is `dp[robotCapacity]`. -/
def selectOrdersDP (ctxDone : Bool) (orders : List Order) (robotID : String)
    (robotCapacity : Int) : Except GoErr DeliveryPlan :=
  match dpOuter ctxDone robotCapacity orders 1 (fun _ => 0) [] with
  | Except.error e => Except.error e
  | Except.ok pr =>
    let bt := backtrack orders pr.2 orders.length robotCapacity
    Except.ok { robotID := robotID, totalWeight := bt.2, totalValue := pr.1 robotCapacity, orders := bt.1 }

/-- The comparator of the `sort.Slice` call in `selectOrdersGreedy`:
`ratio2 < ratio1` with `ratio_k = float64(Value_k) / float64(Weight_k)`.
The float64 division is modelled exactly, by cross-multiplication
(`b.value / b.weight < a.value / a.weight ↔ b.value * a.weight <
a.value * b.weight` for positive weights). -/
def densityBefore (a b : Order) : Bool :=
  b.value * a.weight < a.value * b.weight

/-- Insertion step of the modelled sort. -/
def insertByDensity (o : Order) : List Order → List Order
  | [] => [o]
  | b :: t => if densityBefore o b then o :: b :: t else b :: insertByDensity o t

/-- Model of the `sort.Slice(ordersCopy, ...)` call: some permutation of the
input ordered by descending value/weight ratio.  Go's `sort.Slice` does not
specify the relative order of ratio-ties (it is documented as not stable),
so the theorems below rely only on the permutation property of this model,
never on the order it happens to give tied elements. -/
def sortByDensity (orders : List Order) : List Order :=
  orders.foldr insertByDensity []

/-- One step of the greedy accumulation loop in `selectOrdersGreedy`:
include the order iff `totalWeight + order.Weight <= robotCapacity`.
State: (selectedOrders, totalWeight, totalValue). -/
def greedyStep (robotCapacity : Int) (acc : List Order × Int × Int) (o : Order) :
    List Order × Int × Int :=
  if acc.2.1 + o.weight ≤ robotCapacity then
    (acc.1 ++ [o], acc.2.1 + o.weight, acc.2.2 + o.value)
  else acc

/-- Function `selectOrdersGreedy` from robot.go. -/
def selectOrdersGreedy (orders : List Order) (robotID : String) (robotCapacity : Int) :
    DeliveryPlan :=
  if orders.length = 0 then
    { robotID := robotID, totalWeight := 0, totalValue := 0, orders := [] }
  else
    let sorted := sortByDensity orders
    let r := sorted.foldl (greedyStep robotCapacity) ([], 0, 0)
    { robotID := robotID, totalWeight := r.2.1, totalValue := r.2.2, orders := r.1 }

/-- Function `selectOrdersForDeliveryOptimized` from robot.go: empty input short
circuit, then the size/capacity heuristic
(`n > 500 || robotCapacity > 5000` picks the greedy path). -/
def selectOrdersForDeliveryOptimized (ctxDone : Bool) (orders : List Order)
    (robotID : String) (robotCapacity : Int) : Except GoErr DeliveryPlan :=
  if orders.length = 0 then
    Except.ok { robotID := robotID, totalWeight := 0, totalValue := 0, orders := [] }
  else if 500 < orders.length ∨ 5000 < robotCapacity then
    Except.ok (selectOrdersGreedy orders robotID robotCapacity)
  else
    selectOrdersDP ctxDone orders robotID robotCapacity

/-! ### Orchestrator model (`GenerateDeliveryPlan` and the order repository) -/

/-- A row of the `orders` table joined with its product, as far as the
planner is concerned. -/
structure OrderRow where
  orderID : Int
  status  : String
  weight  : Int
  value   : Int
  deriving Repr, DecidableEq

/-- Function `GetShippingOrders` from order.go: the orders whose `shipped_status`
is `shipping`, projected to (order id, weight, value). -/
def getShippingOrders (db : List OrderRow) : List Order :=
  (db.filter (fun r => r.status == "shipping")).map
    (fun r => { orderID := r.orderID, weight := r.weight, value := r.value })

/-- Function `UpdateStatuses` from order.go: a no-op on the empty id list, otherwise
one bulk `UPDATE ... WHERE order_id IN (...)` setting the status of every
listed order. -/
def updateStatuses (db : List OrderRow) (orderIDs : List Int) (newStatus : String) :
    List OrderRow :=
  if orderIDs.length = 0 then db
  else db.map (fun r => if r.orderID ∈ orderIDs then { r with status := newStatus } else r)

/-- Outcome of one `GenerateDeliveryPlan` call: the returned value, the
database state after the transaction committed or rolled back, and the
list of `UpdateStatuses` invocations issued (each with its id list and the
new status). -/
structure TxOutcome where
  result      : Except GoErr DeliveryPlan
  db          : List OrderRow
  updateCalls : List (List Int × String)

/-- Function `GenerateDeliveryPlan` from robot.go.  The body follows robot.go:
fetch the shipping orders, run `selectOrdersForDeliveryOptimized`, and when
the plan is non-empty issue one `UpdateStatuses(orderIDs, "delivering")`.

Modelled from the spec: `store.ExecTx` and `utils.WithTimeout` are not in
the provided sources; per the spec (§4.2, §5, §7) the transaction commits
the new database state exactly when the body succeeds and rolls back to
the original state on any failure, and the timeout wrapper is represented
by the already-elapsed flag `ctxDone`.  Storage failures of the fetch and
of the update are injected through `fetchFail` and `updateFail`. -/
def GenerateDeliveryPlan (ctxDone fetchFail updateFail : Bool) (db : List OrderRow)
    (robotID : String) (capacity : Int) : TxOutcome :=
  if fetchFail then
    { result := Except.error (GoErr.dbErr "fetch"), db := db, updateCalls := [] }
  else
    let orders := getShippingOrders db
    match selectOrdersForDeliveryOptimized ctxDone orders robotID capacity with
    | Except.error e => { result := Except.error e, db := db, updateCalls := [] }
    | Except.ok plan =>
      if 0 < plan.orders.length then
        let orderIDs := plan.orders.map Order.orderID
        if updateFail then
          { result := Except.error (GoErr.dbErr "update"), db := db,
            updateCalls := [(orderIDs, "delivering")] }
        else
          { result := Except.ok plan, db := updateStatuses db orderIDs "delivering",
            updateCalls := [(orderIDs, "delivering")] }
      else
        { result := Except.ok plan, db := db, updateCalls := [] }

/-! ### Access-checked model of `selectOrdersDP`

Every slice read/write of the Go function is performed on an explicit
`List` through `Option`-valued accessors, so `none` means a runtime panic
(out-of-range index or a `make` with negative length). -/

/-- Checked read `l[i]` of an `[]int`. -/
def getIntAt (l : List Int) (i : Int) : Option Int :=
  if 0 ≤ i then l.get? i.toNat else none

/-- Checked write `l[i] = x` of an `[]int`. -/
def setIntAt (l : List Int) (i : Int) (x : Int) : Option (List Int) :=
  if 0 ≤ i ∧ i.toNat < l.length then some (l.set i.toNat x) else none

/-- Checked read `l[i]` of a `[]bool`. -/
def getBoolAt (l : List Bool) (i : Int) : Option Bool :=
  if 0 ≤ i then l.get? i.toNat else none

/-- Checked write `l[i] = x` of a `[]bool`. -/
def setBoolAt (l : List Bool) (i : Int) (x : Bool) : Option (List Bool) :=
  if 0 ≤ i ∧ i.toNat < l.length then some (l.set i.toNat x) else none

/-- The weight indices visited by the inner loop, in loop order:
`robotCapacity, robotCapacity - 1, ..., order.Weight`. -/
def wRange (c wt : Int) : List Int :=
  (List.range (c + 1 - wt).toNat).map (fun (k : Nat) => c - (k : Int))

/-- Checked inner loop: at each `w` read `dp[w-wt]` and `dp[w]`, and on a
strict improvement write `dp[w]` and `keep[i][w]`. -/
def innerCheckedGo (wt v : Int) : List Int → List Int × List Bool → Option (List Int × List Bool)
  | [], st => some st
  | w :: ws, st => do
    let prev ← getIntAt st.1 (w - wt)
    let includeValue := prev + v
    let cur ← getIntAt st.1 w
    if cur < includeValue then do
      let dp ← setIntAt st.1 w includeValue
      let row ← setBoolAt st.2 w true
      innerCheckedGo wt v ws (dp, row)
    else
      innerCheckedGo wt v ws st

/-- Checked outer loop: one inner pass per order on a fresh all-`false`
`keep` row of length `robotCapacity + 1`; returns the final dp slice and
the rows for steps `1..n`. -/
def dpOuterChecked (c : Int) : List Order → List Int → Option (List Int × List (List Bool))
  | [], dp => some (dp, [])
  | o :: rest, dp => do
    let st ← innerCheckedGo o.weight o.value (wRange c o.weight)
      (dp, List.replicate (c + 1).toNat false)
    let pr ← dpOuterChecked c rest st.1
    pure (pr.1, st.2 :: pr.2)

/-- Checked backtracking loop: reads `keep[i][w]` while `i > 0 && w > 0`. -/
def backtrackChecked (orders : List Order) (rows : List (List Bool)) :
    Nat → Int → Option (List Order × Int)
  | 0, _ => some ([], 0)
  | i + 1, w =>
    if 0 < w then do
      let row ← rows.get? i
      let b ← getBoolAt row w
      if b then
        let o := orders.getD i default
        let p ← backtrackChecked orders rows i (w - o.weight)
        pure (o :: p.1, o.weight + p.2)
      else
        backtrackChecked orders rows i w
    else some ([], 0)

/-- Access-checked `selectOrdersDP`: `make([]int, robotCapacity+1)` panics
on a negative length; the final answer reads `dp[robotCapacity]`.
(The cancellation checkpoints touch no slice, so the context is omitted
here; this model settles only where the Go function can panic.) -/
def selectOrdersDPChecked (orders : List Order) (robotID : String) (robotCapacity : Int) :
    Option DeliveryPlan :=
  if robotCapacity + 1 < 0 then none
  else do
    let pr ← dpOuterChecked robotCapacity orders (List.replicate (robotCapacity + 1).toNat 0)
    let bt ← backtrackChecked orders pr.2 orders.length robotCapacity
    let best ← getIntAt pr.1 robotCapacity
    pure { robotID := robotID, totalWeight := bt.2, totalValue := best, orders := bt.1 }

/-! ### Specification-side definitions used to state optimality -/

/-- The textbook 0/1-knapsack step: processing one item of weight `wt` and
value `v` turns the profile `f` into
`w ↦ max (f w) (f (w - wt) + v)` on budgets that fit the item. -/
def specStep (wt v : Int) (f : Int → Int) : Int → Int :=
  fun w => if wt ≤ w then max (f w) (f (w - wt) + v) else f w

/-- Item-by-item knapsack profile starting from `f`. -/
def knapFold (os : List Order) (f : Int → Int) : Int → Int :=
  os.foldl (fun g o => specStep o.weight o.value g) f

/-- The knapsack value profile of an order list: `knap os w` is (as proved
below) the best total value of a sub-list of `os` of total weight `≤ w`. -/
def knap (os : List Order) : Int → Int :=
  knapFold os (fun _ => 0)

/-- Pure view of the table-filling phase: the dp function and the list of
`keep` rows, one per processed order. -/
def dpPure (c : Int) : List Order → (Int → Int) → (Int → Int) × List (Int → Bool)
  | [], dp => (dp, [])
  | o :: rest, dp =>
    let p := dpInner o.weight o.value c dp (fun _ => false)
    let q := dpPure c rest p.1
    (q.1, p.2 :: q.2)

/-! ### Characterisation of the inner loop -/

theorem updF_same (f : Int → Int) (w x : Int) : updF f w x w = x := by
  simp [updF]

theorem updF_ne (f : Int → Int) (w x j : Int) (h : j ≠ w) : updF f w x j = f j := by
  simp [updF, h]

theorem updB_same (f : Int → Bool) (w : Int) : updB f w w = true := by
  simp [updB]

theorem updB_ne (f : Int → Bool) (w j : Int) (h : j ≠ w) : updB f w j = f j := by
  simp [updB, h]

theorem innerGo_fst (wt v : Int) (hwt : 0 ≤ wt) :
    ∀ (k : Nat) (dp : Int → Int) (row : Int → Bool) (j : Int),
      (innerGo wt v k dp row).1 j =
        if wt ≤ j ∧ j < wt + k then max (dp j) (dp (j - wt) + v) else dp j := by
  intro k
  induction k with
  | zero =>
    intro dp row j
    simp only [innerGo]
    rw [if_neg (by omega)]
  | succ k ih =>
    intro dp row j
    simp only [innerGo]
    by_cases hlt : dp (wt + k) < dp (wt + k - wt) + v
    · rw [if_pos hlt, ih]
      split_ifs with h1 h2
      · rw [updF_ne _ _ _ _ (by omega), updF_ne _ _ _ _ (by omega)]
      · exfalso; omega
      · by_cases h3 : j = wt + (k : Int)
        · subst h3
          rw [updF_same]
          exact (max_eq_right hlt.le).symm
        · exfalso; omega
      · rw [updF_ne _ _ _ _ (by omega)]
    · rw [if_neg hlt, ih]
      split_ifs with h1 h2
      · rfl
      · exfalso; omega
      · by_cases h3 : j = wt + (k : Int)
        · subst h3
          exact (max_eq_left (not_lt.mp hlt)).symm
        · exfalso; omega
      · rfl

theorem innerGo_snd (wt v : Int) (hwt : 0 ≤ wt) :
    ∀ (k : Nat) (dp : Int → Int) (row : Int → Bool) (j : Int),
      ((innerGo wt v k dp row).2 j = true) ↔
        ((wt ≤ j ∧ j < wt + k ∧ dp j < dp (j - wt) + v) ∨ row j = true) := by
  intro k
  induction k with
  | zero =>
    intro dp row j
    simp only [innerGo]
    constructor
    · intro h; exact Or.inr h
    · rintro (⟨h1, h2, h3⟩ | h)
      · exfalso; omega
      · exact h
  | succ k ih =>
    intro dp row j
    simp only [innerGo]
    by_cases hlt : dp (wt + k) < dp (wt + k - wt) + v
    · rw [if_pos hlt, ih]
      by_cases h3 : j = wt + (k : Int)
      · subst h3
        constructor
        · intro _
          exact Or.inl ⟨by omega, by push_cast; omega, hlt⟩
        · intro _
          exact Or.inr (updB_same _ _)
      · rw [updF_ne _ _ _ _ h3, updB_ne _ _ _ h3]
        by_cases h4 : (wt + (k : Int)) - wt = j - wt
        · have : j = wt + (k : Int) := by omega
          exact absurd this h3
        · constructor
          · rintro (⟨ha, hb, hc⟩ | h)
            · rw [updF_ne _ _ _ _ (by omega)] at hc
              exact Or.inl ⟨ha, by push_cast; omega, hc⟩
            · exact Or.inr h
          · rintro (⟨ha, hb, hc⟩ | h)
            · have hb' : j < wt + (k : Int) := by push_cast at hb; omega
              exact Or.inl ⟨ha, hb', by rw [updF_ne _ _ _ _ (by omega)]; exact hc⟩
            · exact Or.inr h
    · rw [if_neg hlt, ih]
      constructor
      · rintro (⟨ha, hb, hc⟩ | h)
        · exact Or.inl ⟨ha, by push_cast; omega, hc⟩
        · exact Or.inr h
      · rintro (⟨ha, hb, hc⟩ | h)
        · by_cases h3 : j = wt + (k : Int)
          · subst h3; exact absurd hc hlt
          · exact Or.inl ⟨ha, by push_cast at hb; omega, hc⟩
        · exact Or.inr h

/-- On budgets `j ≤ c`, one inner pass realises exactly the knapsack step. -/
theorem dpInner_fst (wt v c : Int) (hwt : 0 ≤ wt) (dp : Int → Int) (row : Int → Bool)
    (j : Int) (hj : j ≤ c) :
    (dpInner wt v c dp row).1 j = specStep wt v dp j := by
  unfold dpInner specStep
  rw [innerGo_fst wt v hwt]
  by_cases hcw : wt ≤ c
  · have hk : (wt : Int) + ((c + 1 - wt).toNat : Int) = c + 1 := by omega
    by_cases hwj : wt ≤ j
    · rw [if_pos (show wt ≤ j ∧ j < wt + ((c + 1 - wt).toNat : Int) by omega), if_pos hwj]
    · rw [if_neg (show ¬(wt ≤ j ∧ j < wt + ((c + 1 - wt).toNat : Int)) by omega), if_neg hwj]
  · have hk : ((c + 1 - wt).toNat : Int) = 0 := by omega
    have hwj : ¬wt ≤ j := by omega
    rw [if_neg (show ¬(wt ≤ j ∧ j < wt + ((c + 1 - wt).toNat : Int)) by omega), if_neg hwj]

/-- The `keep` row written by one inner pass (starting from the all-`false`
row), on budgets `j ≤ c`: the order is recorded exactly where its inclusion
strictly improves the profile. -/
theorem dpInner_snd (wt v c : Int) (hwt : 0 ≤ wt) (dp : Int → Int)
    (j : Int) (hj : j ≤ c) :
    ((dpInner wt v c dp (fun _ => false)).2 j = true) ↔
      (wt ≤ j ∧ dp j < dp (j - wt) + v) := by
  unfold dpInner
  rw [innerGo_snd wt v hwt]
  constructor
  · rintro (⟨ha, hb, hc⟩ | h)
    · exact ⟨ha, hc⟩
    · exact absurd h (by simp)
  · rintro ⟨ha, hb⟩
    have hcw : wt ≤ c := le_trans ha hj
    exact Or.inl ⟨ha, by omega, hb⟩

/-! ### The outer loop -/

theorem knapFold_nil (f : Int → Int) : knapFold [] f = f := rfl

theorem knapFold_cons (o : Order) (os : List Order) (f : Int → Int) :
    knapFold (o :: os) f = knapFold os (specStep o.weight o.value f) := rfl

theorem knapFold_append_singleton (os : List Order) (o : Order) (f : Int → Int) :
    knapFold (os ++ [o]) f = specStep o.weight o.value (knapFold os f) := by
  simp [knapFold, List.foldl_append]

/-- With a context that is not done, the outer loop never aborts and
computes exactly the pure table fill. -/
theorem dpOuter_false_ok (c : Int) :
    ∀ (rest : List Order) (i : Nat) (dp : Int → Int) (rows : List (Int → Bool)),
      dpOuter false c rest i dp rows =
        Except.ok ((dpPure c rest dp).1, rows ++ (dpPure c rest dp).2) := by
  intro rest
  induction rest with
  | nil =>
    intro i dp rows
    simp [dpOuter, dpPure]
  | cons o rest ih =>
    intro i dp rows
    simp only [dpOuter, dpPure]
    rw [if_neg (by simp)]
    rw [ih]
    simp

/-- Whenever the outer loop succeeds, its result is the pure table fill. -/
theorem dpOuter_ok_eq (ctx : Bool) (c : Int) :
    ∀ (rest : List Order) (i : Nat) (dp : Int → Int) (rows : List (Int → Bool)) pr,
      dpOuter ctx c rest i dp rows = Except.ok pr →
      pr = ((dpPure c rest dp).1, rows ++ (dpPure c rest dp).2) := by
  intro rest
  induction rest with
  | nil =>
    intro i dp rows pr h
    simp only [dpOuter] at h
    cases h
    simp [dpPure]
  | cons o rest ih =>
    intro i dp rows pr h
    simp only [dpOuter] at h
    by_cases hc : i % 50 = 0 ∧ ctx = true
    · rw [if_pos hc] at h
      cases h
    · rw [if_neg hc] at h
      have := ih (i + 1) _ _ pr h
      rw [this]
      simp only [dpPure]
      simp [List.append_assoc]

/-- With an already-done context, the outer loop reaches the `i = 50`
cancellation checkpoint whenever at least `51 - i` orders remain, and
aborts there with `ctx.Err()`. -/
theorem dpOuter_abort (c : Int) :
    ∀ (rest : List Order) (i : Nat) (dp : Int → Int) (rows : List (Int → Bool)),
      1 ≤ i → i ≤ 50 → 50 < i + rest.length →
      dpOuter true c rest i dp rows = Except.error GoErr.ctxErr := by
  intro rest
  induction rest with
  | nil =>
    intro i dp rows h1 h2 h3
    exfalso
    simp only [List.length_nil] at h3
    omega
  | cons o rest ih =>
    intro i dp rows h1 h2 h3
    by_cases h50 : i % 50 = 0
    · simp [dpOuter, h50]
    · simp only [dpOuter]
      rw [if_neg (by simp [h50])]
      have hlt : i < 50 := by
        rcases Nat.lt_or_ge i 50 with h | h
        · exact h
        · exfalso
          have : i = 50 := by omega
          subst this
          exact h50 rfl
      apply ih
      · omega
      · omega
      · simp only [List.length_cons] at h3
        omega

/-! ### The pure table fill computes the knapsack profile -/

theorem specStep_congr (wt v c : Int) (hwt : 0 ≤ wt) (f g : Int → Int)
    (h : ∀ j, j ≤ c → f j = g j) : ∀ j, j ≤ c → specStep wt v f j = specStep wt v g j := by
  intro j hj
  unfold specStep
  by_cases hwj : wt ≤ j
  · rw [if_pos hwj, if_pos hwj, h j hj, h (j - wt) (by omega)]
  · rw [if_neg hwj, if_neg hwj, h j hj]

theorem knapFold_congr (c : Int) :
    ∀ (os : List Order), (∀ o ∈ os, 0 ≤ o.weight) →
      ∀ (f g : Int → Int), (∀ j, j ≤ c → f j = g j) →
      ∀ j, j ≤ c → knapFold os f j = knapFold os g j := by
  intro os
  induction os with
  | nil =>
    intro _ f g h j hj
    exact h j hj
  | cons o rest ih =>
    intro hw f g h j hj
    rw [knapFold_cons, knapFold_cons]
    exact ih (fun o' ho' => hw o' (List.mem_cons_of_mem _ ho')) _ _
      (specStep_congr o.weight o.value c (hw o (List.mem_cons_self o rest)) f g h) j hj

theorem dpPure_fst (c : Int) :
    ∀ (os : List Order), (∀ o ∈ os, 0 ≤ o.weight) →
      ∀ (dp : Int → Int) (j : Int), j ≤ c →
        (dpPure c os dp).1 j = knapFold os dp j := by
  intro os
  induction os with
  | nil =>
    intro _ dp j _
    rfl
  | cons o rest ih =>
    intro hw dp j hj
    have hwo : 0 ≤ o.weight := hw o (List.mem_cons_self o rest)
    simp only [dpPure]
    rw [ih (fun o' ho' => hw o' (List.mem_cons_of_mem _ ho')) _ j hj]
    rw [knapFold_cons]
    exact knapFold_congr c rest (fun o' ho' => hw o' (List.mem_cons_of_mem _ ho')) _ _
      (fun j' hj' => dpInner_fst o.weight o.value c hwo dp (fun _ => false) j' hj') j hj

theorem dpPure_rows_length (c : Int) :
    ∀ (os : List Order) (dp : Int → Int), (dpPure c os dp).2.length = os.length := by
  intro os
  induction os with
  | nil => intro dp; rfl
  | cons o rest ih =>
    intro dp
    simp only [dpPure, List.length_cons]
    rw [ih]

/-! ### The recorded `keep` rows -/

/-- Row `i` (for step `i+1` in Go counting) records, at every budget
`j ≤ c`, exactly whether including order `i` strictly improved the profile
reached after the first `i` orders. -/
theorem dpPure_rows (c : Int) :
    ∀ (os : List Order), (∀ o ∈ os, 0 ≤ o.weight) →
      ∀ (dp : Int → Int) (i : Nat), i < os.length → ∀ j, j ≤ c →
        (((dpPure c os dp).2.getD i (fun _ => false)) j = true ↔
          ((os.getD i default).weight ≤ j ∧
            knapFold (os.take i) dp j <
              knapFold (os.take i) dp (j - (os.getD i default).weight) +
                (os.getD i default).value)) := by
  intro os
  induction os with
  | nil =>
    intro _ dp i hi
    exact absurd hi (by simp)
  | cons o rest ih =>
    intro hw dp i hi j hj
    have hwo : 0 ≤ o.weight := hw o (List.mem_cons_self o rest)
    cases i with
    | zero =>
      simp only [dpPure, List.getD_cons_zero, List.take_zero, knapFold_nil]
      exact dpInner_snd o.weight o.value c hwo dp j hj
    | succ i =>
      simp only [dpPure, List.getD_cons_succ, List.take_succ_cons, knapFold_cons]
      have hi' : i < rest.length := by simpa using hi
      rw [ih (fun o' ho' => hw o' (List.mem_cons_of_mem _ ho')) _ i hi' j hj]
      have hwt' : 0 ≤ (rest.getD i default).weight := by
        rw [List.getD_eq_getElem rest default hi']
        exact hw _ (List.mem_cons_of_mem _ (List.getElem_mem hi'))
      have hcong := knapFold_congr c (rest.take i)
        (fun o' ho' => hw o' (List.mem_cons_of_mem _ (List.take_subset _ _ ho')))
        (dpInner o.weight o.value c dp (fun _ => false)).1
        (specStep o.weight o.value dp)
        (fun j' hj' => dpInner_fst o.weight o.value c hwo dp (fun _ => false) j' hj')
      rw [hcong j hj, hcong _ (by omega)]

/-! ### Basic facts about the knapsack profile and sums -/

theorem sumWeight_nil : sumWeight [] = 0 := rfl

theorem sumValue_nil : sumValue [] = 0 := rfl

theorem sumWeight_cons (o : Order) (l : List Order) :
    sumWeight (o :: l) = o.weight + sumWeight l := by
  simp [sumWeight]

theorem sumValue_cons (o : Order) (l : List Order) :
    sumValue (o :: l) = o.value + sumValue l := by
  simp [sumValue]

theorem sumWeight_append (l₁ l₂ : List Order) :
    sumWeight (l₁ ++ l₂) = sumWeight l₁ + sumWeight l₂ := by
  simp [sumWeight]

theorem sumValue_append (l₁ l₂ : List Order) :
    sumValue (l₁ ++ l₂) = sumValue l₁ + sumValue l₂ := by
  simp [sumValue]

theorem sumWeight_nonneg (l : List Order) (h : ∀ o ∈ l, 0 ≤ o.weight) :
    0 ≤ sumWeight l := by
  induction l with
  | nil => simp [sumWeight]
  | cons o t ih =>
    rw [sumWeight_cons]
    have := h o (List.mem_cons_self o t)
    have := ih (fun o' ho' => h o' (List.mem_cons_of_mem _ ho'))
    omega

theorem knapFold_nonpos :
    ∀ (os : List Order), (∀ o ∈ os, 0 < o.weight) → ∀ (f : Int → Int) (w : Int), w ≤ 0 →
      knapFold os f w = f w := by
  intro os
  induction os with
  | nil =>
    intro _ f w _
    rfl
  | cons o rest ih =>
    intro hw f w hw0
    rw [knapFold_cons, ih (fun o' ho' => hw o' (List.mem_cons_of_mem _ ho')) _ w hw0]
    unfold specStep
    rw [if_neg (by have := hw o (List.mem_cons_self o rest); omega)]

theorem knap_nonpos (os : List Order) (hw : ∀ o ∈ os, 0 < o.weight) (w : Int) (h : w ≤ 0) :
    knap os w = 0 :=
  knapFold_nonpos os hw (fun _ => 0) w h

theorem take_succ_getD (os : List Order) (i : Nat) (hi : i < os.length) :
    os.take (i + 1) = os.take i ++ [os.getD i default] := by
  rw [List.take_succ, List.getElem?_eq_getElem hi, List.getD_eq_getElem os default hi]
  rfl

theorem knap_take_succ (os : List Order) (i : Nat) (hi : i < os.length) :
    knap (os.take (i + 1)) =
      specStep (os.getD i default).weight (os.getD i default).value (knap (os.take i)) := by
  rw [show knap (os.take (i + 1)) = knapFold (os.take (i + 1)) (fun _ => 0) from rfl]
  rw [take_succ_getD os i hi, knapFold_append_singleton]
  rfl

/-! ### Correctness of the backtracking phase -/

/-- Master invariant of the backtracking loop run against the rows of the
table fill: starting at step `i` with remaining budget `0 ≤ w ≤ c`, the
extracted selection has its reported total weight equal to its weight sum,
its value sum equal to the DP optimum `knap (os.take i) w`, total weight at
most `w`, and (reversed) is a sub-list of the first `i` orders. -/
theorem backtrack_spec (c : Int) (os : List Order) (hw : ∀ o ∈ os, 0 < o.weight) :
    ∀ (i : Nat), i ≤ os.length → ∀ (w : Int), 0 ≤ w → w ≤ c →
      (backtrack os (dpPure c os (fun _ => 0)).2 i w).2 =
          sumWeight (backtrack os (dpPure c os (fun _ => 0)).2 i w).1 ∧
        sumValue (backtrack os (dpPure c os (fun _ => 0)).2 i w).1 = knap (os.take i) w ∧
        sumWeight (backtrack os (dpPure c os (fun _ => 0)).2 i w).1 ≤ w ∧
        (backtrack os (dpPure c os (fun _ => 0)).2 i w).1.reverse.Sublist (os.take i) := by
  intro i
  induction i with
  | zero =>
    intro _ w hw0 _
    exact ⟨rfl, rfl, hw0, List.nil_sublist _⟩
  | succ i ih =>
    intro hi w hw0 hwc
    have hi' : i < os.length := hi
    have hwt : 0 < (os.getD i default).weight := by
      rw [List.getD_eq_getElem os default hi']
      exact hw _ (List.getElem_mem hi')
    by_cases hpos : 0 < w
    · by_cases hkeep : (dpPure c os (fun _ => 0)).2.getD i (fun _ => false) w = true
      · have hunf : backtrack os (dpPure c os (fun _ => 0)).2 (i + 1) w =
            ((os.getD i default) ::
              (backtrack os (dpPure c os (fun _ => 0)).2 i
                (w - (os.getD i default).weight)).1,
             (os.getD i default).weight +
              (backtrack os (dpPure c os (fun _ => 0)).2 i
                (w - (os.getD i default).weight)).2) := by
          simp only [backtrack]
          rw [if_pos hpos, if_pos hkeep]
        obtain ⟨hwle, hstrict⟩ :=
          (dpPure_rows c os (fun o ho => (hw o ho).le) (fun _ => 0) i hi' w hwc).mp hkeep
        have hstrict' : knap (os.take i) w <
            knap (os.take i) (w - (os.getD i default).weight) + (os.getD i default).value :=
          hstrict
        obtain ⟨e1, e2, e3, e4⟩ := ih hi'.le (w - (os.getD i default).weight)
          (by omega) (by omega)
        rw [hunf]
        refine ⟨?_, ?_, ?_, ?_⟩
        · rw [sumWeight_cons, e1]
        · rw [sumValue_cons, e2, knap_take_succ os i hi']
          unfold specStep
          rw [if_pos hwle, max_eq_right hstrict'.le]
          omega
        · rw [sumWeight_cons]
          omega
        · rw [List.reverse_cons, take_succ_getD os i hi']
          exact List.Sublist.append e4 (List.Sublist.refl _)
      · have hunf : backtrack os (dpPure c os (fun _ => 0)).2 (i + 1) w =
            backtrack os (dpPure c os (fun _ => 0)).2 i w := by
          simp only [backtrack]
          rw [if_pos hpos, if_neg hkeep]
        obtain ⟨e1, e2, e3, e4⟩ := ih hi'.le w hw0 hwc
        rw [hunf]
        have hsame : knap (os.take (i + 1)) w = knap (os.take i) w := by
          rw [knap_take_succ os i hi']
          unfold specStep
          by_cases hwj : (os.getD i default).weight ≤ w
          · rw [if_pos hwj]
            have hnotstrict : ¬(knap (os.take i) w <
                knap (os.take i) (w - (os.getD i default).weight) +
                  (os.getD i default).value) := by
              intro hcontra
              exact hkeep ((dpPure_rows c os (fun o ho => (hw o ho).le)
                (fun _ => 0) i hi' w hwc).mpr ⟨hwj, hcontra⟩)
            exact max_eq_left (not_lt.mp hnotstrict)
          · rw [if_neg hwj]
        refine ⟨e1, ?_, e3, ?_⟩
        · rw [e2, hsame]
        · refine e4.trans ?_
          rw [take_succ_getD os i hi']
          exact List.sublist_append_left _ _
    · have hw0' : w = 0 := by omega
      subst hw0'
      have hunf : backtrack os (dpPure c os (fun _ => 0)).2 (i + 1) 0 = ([], 0) := by
        simp only [backtrack]
        rw [if_neg hpos]
      rw [hunf]
      refine ⟨rfl, ?_, by rw [sumWeight_nil], List.nil_sublist _⟩
      rw [sumValue_nil, knap_nonpos _ (fun o ho => hw o (List.take_subset _ _ ho)) 0 le_rfl]

/-! ### The knapsack profile is an upper bound over all sub-lists -/

/-- Upper bound: no sub-list respecting the weight budget can beat the DP
profile. -/
theorem sumValue_le_knap :
    ∀ (os : List Order), (∀ o ∈ os, 0 ≤ o.weight) →
      ∀ (s : List Order), s.Sublist os → ∀ (w : Int), sumWeight s ≤ w →
        sumValue s ≤ knap os w := by
  intro os
  induction os using List.reverseRecOn with
  | nil =>
    intro _ s hs w _
    rw [List.sublist_nil] at hs
    subst hs
    exact le_rfl
  | append_singleton l o ih =>
    intro hw s hs w hsw
    have hwl : ∀ o' ∈ l, 0 ≤ o'.weight := fun o' ho' => hw o' (by simp [ho'])
    have hwo : 0 ≤ o.weight := hw o (by simp)
    rw [show knap (l ++ [o]) = knapFold (l ++ [o]) (fun _ => 0) from rfl,
        knapFold_append_singleton]
    rw [List.sublist_append_iff] at hs
    obtain ⟨s₁, s₂, rfl, h₁, h₂⟩ := hs
    rcases List.sublist_singleton.mp h₂ with rfl | rfl
    · rw [List.append_nil] at hsw ⊢
      refine le_trans (ih hwl s₁ h₁ w hsw) ?_
      unfold specStep
      by_cases hwj : o.weight ≤ w
      · rw [if_pos hwj]
        exact le_max_left _ _
      · rw [if_neg hwj]
        exact le_rfl
    · have hsw1 : sumWeight (s₁ ++ [o]) = sumWeight s₁ + o.weight := by
        rw [sumWeight_append, sumWeight_cons, sumWeight_nil]
        omega
      have hg : 0 ≤ sumWeight s₁ :=
        sumWeight_nonneg s₁ (fun o' ho' => hwl o' (h₁.subset ho'))
      have hinc := ih hwl s₁ h₁ (w - o.weight) (by omega)
      have hle : o.weight ≤ w := by omega
      unfold specStep
      rw [if_pos hle]
      have hsv : sumValue (s₁ ++ [o]) = sumValue s₁ + o.value := by
        rw [sumValue_append, sumValue_cons, sumValue_nil]
        omega
      rw [hsv]
      exact le_trans (add_le_add_right hinc o.value) (le_max_right _ _)

/-! ### Assembled characterisations of the two strategies -/

/-- With a live context, `selectOrdersDP` returns the plan assembled from
the pure table fill and the backtracking loop. -/
theorem selectOrdersDP_false_eq (orders : List Order) (rid : String) (c : Int) :
    selectOrdersDP false orders rid c = Except.ok
      { robotID := rid,
        totalWeight := (backtrack orders (dpPure c orders (fun _ => 0)).2 orders.length c).2,
        totalValue := (dpPure c orders (fun _ => 0)).1 c,
        orders := (backtrack orders (dpPure c orders (fun _ => 0)).2 orders.length c).1 } := by
  unfold selectOrdersDP
  rw [dpOuter_false_ok]
  simp

/-- Full functional characterisation of the DP path on a live context:
the reported total value is the knapsack optimum, the traceback recovers a
selection achieving exactly that value, the reported total weight is that
selection's weight sum and respects the capacity, and the selection
(reversed) is a sub-list of the input. -/
theorem selectOrdersDP_spec (orders : List Order) (rid : String) (c : Int)
    (hc : 0 ≤ c) (hw : ∀ o ∈ orders, 0 < o.weight) :
    ∃ plan, selectOrdersDP false orders rid c = Except.ok plan ∧
      plan.robotID = rid ∧
      plan.totalValue = knap orders c ∧
      sumValue plan.orders = plan.totalValue ∧
      plan.totalWeight = sumWeight plan.orders ∧
      sumWeight plan.orders ≤ c ∧
      plan.orders.reverse.Sublist orders := by
  refine ⟨_, selectOrdersDP_false_eq orders rid c, rfl, ?_, ?_, ?_, ?_, ?_⟩
  · exact dpPure_fst c orders (fun o ho => (hw o ho).le) (fun _ => 0) c le_rfl
  · obtain ⟨e1, e2, e3, e4⟩ := backtrack_spec c orders hw orders.length le_rfl c hc le_rfl
    rw [e2, List.take_length]
    exact (dpPure_fst c orders (fun o ho => (hw o ho).le) (fun _ => 0) c le_rfl).symm
  · exact (backtrack_spec c orders hw orders.length le_rfl c hc le_rfl).1
  · exact (backtrack_spec c orders hw orders.length le_rfl c hc le_rfl).2.2.1
  · have := (backtrack_spec c orders hw orders.length le_rfl c hc le_rfl).2.2.2
    rwa [List.take_length] at this

/-- Invariant of the greedy accumulation loop: the running totals are the
weight/value sums of the selection, the capacity is respected, and the
selection extends the accumulator by a sub-list of the remaining input. -/
theorem greedy_foldl_inv (c : Int) :
    ∀ (l : List Order) (acc : List Order × Int × Int),
      acc.2.1 = sumWeight acc.1 → acc.2.2 = sumValue acc.1 → acc.2.1 ≤ c →
      ((l.foldl (greedyStep c) acc).2.1 = sumWeight (l.foldl (greedyStep c) acc).1 ∧
       (l.foldl (greedyStep c) acc).2.2 = sumValue (l.foldl (greedyStep c) acc).1 ∧
       (l.foldl (greedyStep c) acc).2.1 ≤ c ∧
       ∃ s, s.Sublist l ∧ (l.foldl (greedyStep c) acc).1 = acc.1 ++ s) := by
  intro l
  induction l with
  | nil =>
    intro acc h1 h2 h3
    exact ⟨h1, h2, h3, [], List.nil_sublist _, (List.append_nil _).symm⟩
  | cons o rest ih =>
    intro acc h1 h2 h3
    rw [List.foldl_cons]
    by_cases hfit : acc.2.1 + o.weight ≤ c
    · have hstep : greedyStep c acc o = (acc.1 ++ [o], acc.2.1 + o.weight, acc.2.2 + o.value) := by
        unfold greedyStep
        rw [if_pos hfit]
      rw [hstep]
      obtain ⟨g1, g2, g3, s, hs, hg⟩ :=
        ih (acc.1 ++ [o], acc.2.1 + o.weight, acc.2.2 + o.value)
          (by simp only [sumWeight_append, sumWeight_cons, sumWeight_nil]; omega)
          (by simp only [sumValue_append, sumValue_cons, sumValue_nil]; omega)
          hfit
      refine ⟨g1, g2, g3, o :: s, List.Sublist.cons₂ o hs, ?_⟩
      rw [hg, List.append_assoc]
      rfl
    · have hstep : greedyStep c acc o = acc := by
        unfold greedyStep
        rw [if_neg hfit]
      rw [hstep]
      obtain ⟨g1, g2, g3, s, hs, hg⟩ := ih acc h1 h2 h3
      exact ⟨g1, g2, g3, s, List.Sublist.cons o hs, hg⟩

theorem insertByDensity_perm (o : Order) : ∀ l, (insertByDensity o l).Perm (o :: l) := by
  intro l
  induction l with
  | nil => simp [insertByDensity]
  | cons b t ih =>
    unfold insertByDensity
    by_cases h : densityBefore o b = true
    · rw [if_pos h]
    · rw [if_neg h]
      exact (List.Perm.cons b ih).trans (List.Perm.swap o b t)

theorem sortByDensity_perm (l : List Order) : (sortByDensity l).Perm l := by
  induction l with
  | nil => simp [sortByDensity]
  | cons o t ih =>
    unfold sortByDensity
    rw [List.foldr_cons]
    exact (insertByDensity_perm o _).trans (List.Perm.cons o ih)

/-- At capacity 0, the greedy loop never admits an order of positive
weight. -/
theorem greedy_foldl_zero :
    ∀ (l : List Order), (∀ o ∈ l, 0 < o.weight) → ∀ (acc : List Order × Int × Int),
      0 ≤ acc.2.1 → l.foldl (greedyStep 0) acc = acc := by
  intro l
  induction l with
  | nil =>
    intro _ acc _
    rfl
  | cons o rest ih =>
    intro hw acc hacc
    rw [List.foldl_cons]
    have hstep : greedyStep 0 acc o = acc := by
      unfold greedyStep
      rw [if_neg (by have := hw o (List.mem_cons_self o rest); omega)]
    rw [hstep]
    exact ih (fun o' ho' => hw o' (List.mem_cons_of_mem _ ho')) acc hacc

/-- Characterisation of `selectOrdersGreedy`: the reported totals are the
selection's weight/value sums, the capacity is respected, and the selection
is a sub-list of the sorted copy. -/
theorem selectOrdersGreedy_spec (orders : List Order) (rid : String) (c : Int) (hc : 0 ≤ c) :
    (selectOrdersGreedy orders rid c).totalWeight =
        sumWeight (selectOrdersGreedy orders rid c).orders ∧
      (selectOrdersGreedy orders rid c).totalValue =
        sumValue (selectOrdersGreedy orders rid c).orders ∧
      (selectOrdersGreedy orders rid c).totalWeight ≤ c ∧
      (selectOrdersGreedy orders rid c).orders.Sublist (sortByDensity orders) := by
  unfold selectOrdersGreedy
  by_cases hn : orders.length = 0
  · rw [if_pos hn]
    exact ⟨rfl, rfl, hc, List.nil_sublist _⟩
  · rw [if_neg hn]
    dsimp only
    obtain ⟨g1, g2, g3, s, hs, hg⟩ := greedy_foldl_inv c (sortByDensity orders) ([], 0, 0) rfl rfl hc
    refine ⟨g1, g2, g3, ?_⟩
    rw [hg, List.nil_append]
    exact hs

/-- Empty input short circuit of `selectOrdersForDeliveryOptimized`. -/
theorem optimized_empty (ctx : Bool) (rid : String) (c : Int) :
    selectOrdersForDeliveryOptimized ctx [] rid c =
      Except.ok { robotID := rid, totalWeight := 0, totalValue := 0, orders := [] } := rfl

/-- On a non-empty input within both thresholds the dispatcher runs the DP. -/
theorem optimized_dp (ctx : Bool) (orders : List Order) (rid : String) (c : Int)
    (hn : orders ≠ []) (h500 : orders.length ≤ 500) (h5000 : c ≤ 5000) :
    selectOrdersForDeliveryOptimized ctx orders rid c = selectOrdersDP ctx orders rid c := by
  unfold selectOrdersForDeliveryOptimized
  rw [if_neg (by simpa using hn), if_neg (by rintro (h | h) <;> omega)]

/-- On a non-empty input beyond either threshold the dispatcher runs the
greedy approximation. -/
theorem optimized_greedy (ctx : Bool) (orders : List Order) (rid : String) (c : Int)
    (hn : orders ≠ []) (h : 500 < orders.length ∨ 5000 < c) :
    selectOrdersForDeliveryOptimized ctx orders rid c =
      Except.ok (selectOrdersGreedy orders rid c) := by
  unfold selectOrdersForDeliveryOptimized
  rw [if_neg (by simpa using hn), if_pos h]

/-- Whatever the context flag, a successful `selectOrdersDP` call returns
exactly the plan assembled from the pure table fill. -/
theorem selectOrdersDP_ok (ctx : Bool) (orders : List Order) (rid : String) (c : Int)
    (plan : DeliveryPlan) (h : selectOrdersDP ctx orders rid c = Except.ok plan) :
    plan = { robotID := rid,
             totalWeight := (backtrack orders (dpPure c orders (fun _ => 0)).2 orders.length c).2,
             totalValue := (dpPure c orders (fun _ => 0)).1 c,
             orders := (backtrack orders (dpPure c orders (fun _ => 0)).2 orders.length c).1 } := by
  unfold selectOrdersDP at h
  cases hdp : dpOuter ctx c orders 1 (fun _ => 0) [] with
  | error e =>
    rw [hdp] at h
    cases h
  | ok pr =>
    rw [hdp] at h
    have hpr := dpOuter_ok_eq ctx c orders 1 (fun _ => 0) [] pr hdp
    rw [hpr, List.nil_append] at h
    exact (Except.ok.inj h).symm

/-- The backtracking loop is a no-op on a zero budget. -/
theorem backtrack_zero (orders : List Order) (rows : List (Int → Bool)) :
    ∀ i, backtrack orders rows i 0 = ([], 0) := by
  intro i
  cases i with
  | zero => rfl
  | succ i =>
    simp only [backtrack]
    rw [if_neg (by omega)]

/-! ### Totality of the access-checked DP under the non-negativity precondition -/

theorem wRange_mem (c wt : Int) : ∀ w ∈ wRange c wt, wt ≤ w ∧ w ≤ c := by
  intro w hw
  unfold wRange at hw
  obtain ⟨k, hk, rfl⟩ := List.mem_map.mp hw
  rw [List.mem_range] at hk
  omega

theorem getIntAt_some (l : List Int) (i : Int) (h0 : 0 ≤ i) (hl : i < (l.length : Int)) :
    ∃ x, getIntAt l i = some x := by
  unfold getIntAt
  rw [if_pos h0, List.get?_eq_getElem?, List.getElem?_eq_getElem (by omega)]
  exact ⟨_, rfl⟩

theorem getBoolAt_some (l : List Bool) (i : Int) (h0 : 0 ≤ i) (hl : i < (l.length : Int)) :
    ∃ x, getBoolAt l i = some x := by
  unfold getBoolAt
  rw [if_pos h0, List.get?_eq_getElem?, List.getElem?_eq_getElem (by omega)]
  exact ⟨_, rfl⟩

theorem setIntAt_some (l : List Int) (i : Int) (x : Int) (h0 : 0 ≤ i)
    (hl : i < (l.length : Int)) :
    setIntAt l i x = some (l.set i.toNat x) := by
  unfold setIntAt
  rw [if_pos ⟨h0, by omega⟩]

theorem setBoolAt_some (l : List Bool) (i : Int) (x : Bool) (h0 : 0 ≤ i)
    (hl : i < (l.length : Int)) :
    setBoolAt l i x = some (l.set i.toNat x) := by
  unfold setBoolAt
  rw [if_pos ⟨h0, by omega⟩]

theorem innerCheckedGo_some (wt v : Int) (L : Nat) (hwt : 0 ≤ wt) (c : Int)
    (hL : (L : Int) = c + 1) :
    ∀ (ws : List Int), (∀ w ∈ ws, wt ≤ w ∧ w ≤ c) →
      ∀ (st : List Int × List Bool), st.1.length = L → st.2.length = L →
        ∃ st', innerCheckedGo wt v ws st = some st' ∧ st'.1.length = L ∧ st'.2.length = L := by
  intro ws
  induction ws with
  | nil =>
    intro _ st h1 h2
    exact ⟨st, rfl, h1, h2⟩
  | cons w ws ih =>
    intro hmem st h1 h2
    obtain ⟨hw1, hw2⟩ := hmem w (List.mem_cons_self _ _)
    obtain ⟨prev, hprev⟩ := getIntAt_some st.1 (w - wt) (by omega) (by rw [h1]; omega)
    obtain ⟨cur, hcur⟩ := getIntAt_some st.1 w (by omega) (by rw [h1]; omega)
    simp only [innerCheckedGo, hprev, hcur, Option.bind_eq_bind, Option.pure_def,
      Option.some_bind]
    by_cases hc : cur < prev + v
    · rw [if_pos hc]
      rw [setIntAt_some st.1 w (prev + v) (by omega) (by rw [h1]; omega)]
      rw [setBoolAt_some st.2 w true (by omega) (by rw [h2]; omega)]
      simp only [Option.bind_eq_bind, Option.some_bind]
      exact ih (fun w' hw' => hmem w' (List.mem_cons_of_mem _ hw'))
        (st.1.set w.toNat (prev + v), st.2.set w.toNat true)
        (by simp [h1]) (by simp [h2])
    · rw [if_neg hc]
      exact ih (fun w' hw' => hmem w' (List.mem_cons_of_mem _ hw')) st h1 h2

theorem dpOuterChecked_some (c : Int) (hc : 0 ≤ c) :
    ∀ (os : List Order), (∀ o ∈ os, 0 ≤ o.weight) →
      ∀ (dp : List Int), dp.length = (c + 1).toNat →
        ∃ dp' rows, dpOuterChecked c os dp = some (dp', rows) ∧
          dp'.length = (c + 1).toNat ∧ rows.length = os.length ∧
          ∀ r ∈ rows, r.length = (c + 1).toNat := by
  intro os
  induction os with
  | nil =>
    intro _ dp hdp
    exact ⟨dp, [], rfl, hdp, rfl, by simp⟩
  | cons o rest ih =>
    intro hw dp hdp
    have hwo : 0 ≤ o.weight := hw o (List.mem_cons_self o rest)
    obtain ⟨st', hst', hst1, hst2⟩ := innerCheckedGo_some o.weight o.value (c + 1).toNat hwo c
      (by omega) (wRange c o.weight) (wRange_mem c o.weight)
      (dp, List.replicate (c + 1).toNat false) hdp (by simp)
    obtain ⟨dp', rows, hrec, hd, hr, hrall⟩ :=
      ih (fun o' ho' => hw o' (List.mem_cons_of_mem _ ho')) st'.1 hst1
    refine ⟨dp', st'.2 :: rows, ?_, hd, by simp [hr], ?_⟩
    · simp only [dpOuterChecked, hst', hrec, Option.bind_eq_bind, Option.pure_def,
        Option.some_bind]
    · intro r hr'
      rcases List.mem_cons.mp hr' with rfl | hr''
      · exact hst2
      · exact hrall r hr''

theorem backtrackChecked_some (c : Int) (hc : 0 ≤ c) (orders : List Order)
    (hw : ∀ o ∈ orders, 0 ≤ o.weight) (rows : List (List Bool))
    (hrows : ∀ r ∈ rows, r.length = (c + 1).toNat) :
    ∀ (i : Nat), i ≤ rows.length → ∀ (w : Int), w ≤ c →
      ∃ p, backtrackChecked orders rows i w = some p := by
  intro i
  induction i with
  | zero =>
    intro _ w _
    exact ⟨([], 0), rfl⟩
  | succ i ih =>
    intro hi w hwc
    by_cases hpos : 0 < w
    · have hiro : i < rows.length := hi
      obtain ⟨row, hrow⟩ : ∃ r, rows.get? i = some r := by
        rw [List.get?_eq_getElem?, List.getElem?_eq_getElem hiro]
        exact ⟨_, rfl⟩
      have hrl : row.length = (c + 1).toNat := by
        refine hrows row ?_
        rw [List.get?_eq_getElem?, List.getElem?_eq_getElem hiro] at hrow
        rw [← Option.some.inj hrow]
        exact List.getElem_mem hiro
      obtain ⟨b, hb⟩ := getBoolAt_some row w (by omega) (by rw [hrl]; omega)
      have hwd : 0 ≤ (orders.getD i default).weight := by
        by_cases hio : i < orders.length
        · rw [List.getD_eq_getElem orders default hio]
          exact hw _ (List.getElem_mem hio)
        · rw [List.getD_eq_default orders default (by omega)]
          exact le_rfl
      simp only [backtrackChecked]
      rw [if_pos hpos]
      simp only [hrow, hb, Option.bind_eq_bind, Option.pure_def, Option.some_bind]
      by_cases hbv : b = true
      · rw [if_pos hbv]
        obtain ⟨p, hp⟩ := ih (by omega) (w - (orders.getD i default).weight) (by omega)
        rw [hp]
        exact ⟨_, rfl⟩
      · rw [if_neg hbv]
        exact ih (by omega) w hwc
    · simp only [backtrackChecked]
      rw [if_neg hpos]
      exact ⟨([], 0), rfl⟩

theorem selectOrdersDPChecked_total (orders : List Order) (rid : String) (c : Int)
    (hc : 0 ≤ c) (hw : ∀ o ∈ orders, 0 ≤ o.weight) :
    ∃ p, selectOrdersDPChecked orders rid c = some p := by
  unfold selectOrdersDPChecked
  rw [if_neg (by omega)]
  obtain ⟨dp', rows, h1, hd, hr, hrall⟩ := dpOuterChecked_some c hc orders hw
    (List.replicate (c + 1).toNat 0) (by simp)
  obtain ⟨bt, hbt⟩ := backtrackChecked_some c hc orders hw rows hrall orders.length
    (by omega) c le_rfl
  obtain ⟨best, hbest⟩ := getIntAt_some dp' c hc (by rw [hd]; omega)
  simp only [h1, hbt, hbest, Option.bind_eq_bind, Option.pure_def, Option.some_bind]
  exact ⟨_, rfl⟩

theorem sumWeight_perm {l₁ l₂ : List Order} (h : l₁.Perm l₂) : sumWeight l₁ = sumWeight l₂ :=
  (h.map Order.weight).sum_eq

theorem sumValue_perm {l₁ l₂ : List Order} (h : l₁.Perm l₂) : sumValue l₁ = sumValue l₂ :=
  (h.map Order.value).sum_eq

/-- At capacity 0 and positive weights the greedy picks nothing. -/
theorem selectOrdersGreedy_zero (orders : List Order) (rid : String)
    (hw : ∀ o ∈ orders, 0 < o.weight) :
    selectOrdersGreedy orders rid 0 =
      { robotID := rid, totalWeight := 0, totalValue := 0, orders := [] } := by
  unfold selectOrdersGreedy
  by_cases hn : orders.length = 0
  · rw [if_pos hn]
  · rw [if_neg hn]
    dsimp only
    rw [greedy_foldl_zero (sortByDensity orders)
      (fun o ho => hw o ((sortByDensity_perm orders).subset ho)) ([], 0, 0) le_rfl]

/-- At capacity 0 and positive weights the DP returns the empty plan. -/
theorem selectOrdersDP_zero (orders : List Order) (rid : String)
    (hw : ∀ o ∈ orders, 0 < o.weight) :
    selectOrdersDP false orders rid 0 =
      Except.ok { robotID := rid, totalWeight := 0, totalValue := 0, orders := [] } := by
  rw [selectOrdersDP_false_eq, backtrack_zero]
  have hv : (dpPure 0 orders (fun _ => 0)).1 0 = 0 := by
    rw [dpPure_fst 0 orders (fun o ho => (hw o ho).le) (fun _ => 0) 0 le_rfl]
    exact knap_nonpos orders hw 0 le_rfl
  rw [hv]

/-! ### The claims -/

/-- C1: on the exact-DP path (at most 500 orders, capacity between 0 and
5000, positive weights and values), the plan returned by
`selectOrdersForDeliveryOptimized` has a total value that equals the sum of
the values recovered by the traceback over the keep table, and that value
is the maximum achievable over all subsets whose total weight does not
exceed the capacity. -/
theorem claim1_dp_exact_optimal (orders : List Order) (rid : String) (c : Int)
    (hn : orders.length ≤ 500) (hc0 : 0 ≤ c) (hc : c ≤ 5000)
    (hw : ∀ o ∈ orders, 0 < o.weight) (hv : ∀ o ∈ orders, 0 < o.value) :
    ∃ plan, selectOrdersForDeliveryOptimized false orders rid c = Except.ok plan ∧
      plan.totalValue = sumValue plan.orders ∧
      plan.orders.reverse.Sublist orders ∧
      sumWeight plan.orders ≤ c ∧
      (∀ s, s.Sublist orders → sumWeight s ≤ c → sumValue s ≤ plan.totalValue) := by
  by_cases hempty : orders = []
  · subst hempty
    refine ⟨_, optimized_empty false rid c, rfl, List.nil_sublist _, hc0, ?_⟩
    intro s hs _
    rw [List.sublist_nil] at hs
    subst hs
    exact le_rfl
  · rw [optimized_dp false orders rid c hempty hn hc]
    obtain ⟨plan, heq, _, hval, hsv, _, hwle, hsub⟩ := selectOrdersDP_spec orders rid c hc0 hw
    refine ⟨plan, heq, hsv.symm, hsub, hwle, ?_⟩
    intro s hs hsw
    rw [hval]
    exact sumValue_le_knap orders (fun o ho => (hw o ho).le) s hs c hsw

/-- Witness for C1: the worked example of the spec (orders of
weight/value (2,3), (3,4), (4,5), (5,6), capacity 5; optimum 7). -/
theorem claim1_dp_exact_optimal_witness :
    ∃ plan, selectOrdersForDeliveryOptimized false
        [⟨1, 2, 3⟩, ⟨2, 3, 4⟩, ⟨3, 4, 5⟩, ⟨4, 5, 6⟩] "r" 5 = Except.ok plan ∧
      plan.totalValue = sumValue plan.orders ∧
      plan.orders.reverse.Sublist [⟨1, 2, 3⟩, ⟨2, 3, 4⟩, ⟨3, 4, 5⟩, ⟨4, 5, 6⟩] ∧
      sumWeight plan.orders ≤ 5 ∧
      (∀ s, s.Sublist [⟨1, 2, 3⟩, ⟨2, 3, 4⟩, ⟨3, 4, 5⟩, ⟨4, 5, 6⟩] →
        sumWeight s ≤ 5 → sumValue s ≤ plan.totalValue) :=
  claim1_dp_exact_optimal [⟨1, 2, 3⟩, ⟨2, 3, 4⟩, ⟨3, 4, 5⟩, ⟨4, 5, 6⟩] "r" 5
    (by decide) (by decide) (by decide) (by decide) (by decide)

/-- C2: on every path of `selectOrdersForDeliveryOptimized` (empty
short circuit, greedy, DP), a returned plan's `TotalWeight` is the sum of
the chosen orders' weights and never exceeds the capacity. -/
theorem claim2_weight_invariant (ctx : Bool) (orders : List Order) (rid : String) (c : Int)
    (plan : DeliveryPlan) (hc : 0 ≤ c)
    (hw : ∀ o ∈ orders, 0 < o.weight) (hv : ∀ o ∈ orders, 0 < o.value)
    (h : selectOrdersForDeliveryOptimized ctx orders rid c = Except.ok plan) :
    plan.totalWeight = sumWeight plan.orders ∧ plan.totalWeight ≤ c := by
  unfold selectOrdersForDeliveryOptimized at h
  by_cases hempty : orders.length = 0
  · rw [if_pos hempty] at h
    cases h
    exact ⟨rfl, hc⟩
  · rw [if_neg hempty] at h
    by_cases hbig : 500 < orders.length ∨ 5000 < c
    · rw [if_pos hbig] at h
      obtain ⟨g1, _, g3, _⟩ := selectOrdersGreedy_spec orders rid c hc
      cases h
      exact ⟨g1, g3⟩
    · rw [if_neg hbig] at h
      have hplan := selectOrdersDP_ok ctx orders rid c plan h
      obtain ⟨e1, _, e3, _⟩ := backtrack_spec c orders hw orders.length le_rfl c hc le_rfl
      rw [hplan]
      exact ⟨e1, by rw [e1]; exact e3⟩

/-- Witness for C2 at a concrete DP-path input. -/
theorem claim2_weight_invariant_witness :
    (DeliveryPlan.mk "r" 2 3 [⟨1, 2, 3⟩]).totalWeight =
        sumWeight (DeliveryPlan.mk "r" 2 3 [⟨1, 2, 3⟩]).orders ∧
      (DeliveryPlan.mk "r" 2 3 [⟨1, 2, 3⟩]).totalWeight ≤ 5 :=
  claim2_weight_invariant false [⟨1, 2, 3⟩] "r" 5 (DeliveryPlan.mk "r" 2 3 [⟨1, 2, 3⟩])
    (by decide) (by decide) (by decide) rfl

/-- C4: on a non-empty input the dispatcher uses the greedy approximation
exactly when `n > 500` or `capacity > 5000`, and the exact DP otherwise,
returning precisely the chosen strategy's result. -/
theorem claim4_strategy_dispatch (ctx : Bool) (orders : List Order) (rid : String) (c : Int)
    (h : orders ≠ []) :
    selectOrdersForDeliveryOptimized ctx orders rid c =
      (if 500 < orders.length ∨ 5000 < c then Except.ok (selectOrdersGreedy orders rid c)
       else selectOrdersDP ctx orders rid c) := by
  unfold selectOrdersForDeliveryOptimized
  rw [if_neg (by simpa using h)]

/-- Witness for C4 at a concrete input. -/
theorem claim4_strategy_dispatch_witness :
    selectOrdersForDeliveryOptimized false [⟨1, 1, 1⟩] "r" 1 =
      (if 500 < [(⟨1, 1, 1⟩ : Order)].length ∨ (5000 : Int) < 1 then
        Except.ok (selectOrdersGreedy [⟨1, 1, 1⟩] "r" 1)
       else selectOrdersDP false [⟨1, 1, 1⟩] "r" 1) :=
  claim4_strategy_dispatch false [⟨1, 1, 1⟩] "r" 1 (by decide)

/-- C9: the greedy approximation never beats the exact DP: its total value
is at most the DP plan's total value on the same input. -/
theorem claim9_greedy_le_dp (orders : List Order) (rid rid' : String) (c : Int)
    (hc : 0 ≤ c) (hw : ∀ o ∈ orders, 0 < o.weight) (hv : ∀ o ∈ orders, 0 < o.value) :
    ∃ dpPlan, selectOrdersDP false orders rid c = Except.ok dpPlan ∧
      (selectOrdersGreedy orders rid' c).totalValue ≤ dpPlan.totalValue := by
  obtain ⟨plan, heq, _, hval, _, _, _, _⟩ := selectOrdersDP_spec orders rid c hc hw
  refine ⟨plan, heq, ?_⟩
  rw [hval]
  obtain ⟨g1, g2, g3, hsub⟩ := selectOrdersGreedy_spec orders rid' c hc
  rw [g2]
  have hsp : (selectOrdersGreedy orders rid' c).orders.Subperm orders :=
    (hsub.subperm).trans (sortByDensity_perm orders).subperm
  obtain ⟨t, ht_perm, ht_sub⟩ := hsp
  have hswt : sumWeight t ≤ c := by
    rw [sumWeight_perm ht_perm, ← g1]
    exact g3
  calc sumValue (selectOrdersGreedy orders rid' c).orders
      = sumValue t := (sumValue_perm ht_perm).symm
    _ ≤ knap orders c := sumValue_le_knap orders (fun o ho => (hw o ho).le) t ht_sub c hswt

/-- Witness for C9 at the spec's worked example. -/
theorem claim9_greedy_le_dp_witness :
    ∃ dpPlan, selectOrdersDP false [⟨1, 2, 3⟩, ⟨2, 3, 4⟩, ⟨3, 4, 5⟩, ⟨4, 5, 6⟩] "r" 5 =
        Except.ok dpPlan ∧
      (selectOrdersGreedy [⟨1, 2, 3⟩, ⟨2, 3, 4⟩, ⟨3, 4, 5⟩, ⟨4, 5, 6⟩] "g" 5).totalValue ≤
        dpPlan.totalValue :=
  claim9_greedy_le_dp [⟨1, 2, 3⟩, ⟨2, 3, 4⟩, ⟨3, 4, 5⟩, ⟨4, 5, 6⟩] "r" "g" 5
    (by decide) (by decide) (by decide)

/-- Counterexample to C7 as stated: with a single order (fewer than 50),
the outer loop never reaches an `i % 50 == 0` checkpoint, so even an
already-canceled context yields a normal plan instead of a cancellation
failure on the DP path. -/
theorem claim7_counterexample :
    selectOrdersForDeliveryOptimized true [⟨1, 1, 1⟩] "r" 1 =
      Except.ok { robotID := "r", totalWeight := 1, totalValue := 1, orders := [⟨1, 1, 1⟩] } := by
  rfl

/-- C7 (amended): on the DP path with an already-elapsed deadline or
canceled context, the DP aborts with the context's error at its periodic
checkpoint provided the checkpoint is reached, i.e. provided there are at
least 50 orders; it then returns no plan, only `ctx.Err()`. -/
theorem claim7_amended_cancellation (orders : List Order) (rid : String) (c : Int)
    (h50 : 50 ≤ orders.length) (h500 : orders.length ≤ 500) (hc : c ≤ 5000) :
    selectOrdersForDeliveryOptimized true orders rid c = Except.error GoErr.ctxErr := by
  rw [optimized_dp true orders rid c (by intro h; subst h; simp at h50) h500 hc]
  unfold selectOrdersDP
  rw [dpOuter_abort c orders 1 (fun _ => 0) [] (by omega) (by omega) (by omega)]

/-- Witness for the amended C7: 50 identical orders, canceled context. -/
theorem claim7_amended_cancellation_witness :
    selectOrdersForDeliveryOptimized true (List.replicate 50 ⟨1, 1, 1⟩) "r" 3 =
      Except.error GoErr.ctxErr :=
  claim7_amended_cancellation (List.replicate 50 ⟨1, 1, 1⟩) "r" 3
    (by decide) (by decide) (by decide)

/-- C10: under the non-negativity precondition (capacity ≥ 0 and
non-negative weights) every slice access of `selectOrdersDP` is in bounds,
so the access-checked model always returns a plan; and at the negative
capacity −1 with a non-empty order list the final read `dp[robotCapacity]`
is out of bounds, so the checked model returns `none` (the Go function
panics). -/
theorem claim10_bounds_safety :
    (∀ (orders : List Order) (rid : String) (c : Int), 0 ≤ c →
        (∀ o ∈ orders, 0 ≤ o.weight) →
        ∃ p, selectOrdersDPChecked orders rid c = some p) ∧
      selectOrdersDPChecked [⟨1, 1, 1⟩] "r" (-1) = none := by
  constructor
  · intro orders rid c hc hw
    exact selectOrdersDPChecked_total orders rid c hc hw
  · rfl

/-- Witness for C10's universally quantified part at a concrete input. -/
theorem claim10_bounds_safety_witness :
    ∃ p, selectOrdersDPChecked [⟨1, 2, 3⟩, ⟨2, 3, 4⟩] "w" 5 = some p :=
  claim10_bounds_safety.1 [⟨1, 2, 3⟩, ⟨2, 3, 4⟩] "w" 5 (by decide) (by decide)

/-- C5: a successful `GenerateDeliveryPlan` with a non-empty selected plan
issues exactly one status update carrying exactly the chosen order ids with
status `delivering`; on any failure (fetch, selection, or update) the call
returns the failure and the committed database state is unchanged — no
partial update persists. -/
theorem claim5_atomic_commit (ctx ff uf : Bool) (db : List OrderRow) (rid : String) (c : Int) :
    (∀ plan, (GenerateDeliveryPlan ctx ff uf db rid c).result = Except.ok plan →
      (GenerateDeliveryPlan ctx ff uf db rid c).updateCalls =
        (if plan.orders.length = 0 then []
         else [(plan.orders.map Order.orderID, "delivering")]) ∧
      (GenerateDeliveryPlan ctx ff uf db rid c).db =
        updateStatuses db (plan.orders.map Order.orderID) "delivering") ∧
    (∀ e, (GenerateDeliveryPlan ctx ff uf db rid c).result = Except.error e →
      (GenerateDeliveryPlan ctx ff uf db rid c).db = db) := by
  unfold GenerateDeliveryPlan
  dsimp only
  cases ff with
  | true =>
    rw [if_pos rfl]
    constructor
    · intro plan hok
      simp at hok
    · intro e _
      rfl
  | false =>
    rw [if_neg (by simp)]
    cases hsel : selectOrdersForDeliveryOptimized ctx (getShippingOrders db) rid c with
    | error e =>
      dsimp only
      constructor
      · intro plan hok
        simp at hok
      · intro e' _
        rfl
    | ok p =>
      dsimp only
      by_cases hlen : 0 < p.orders.length
      · rw [if_pos hlen]
        cases uf with
        | true =>
          rw [if_pos rfl]
          constructor
          · intro plan hok
            simp at hok
          · intro e _
            rfl
        | false =>
          rw [if_neg (by simp)]
          constructor
          · intro plan hok
            have hpe := Except.ok.inj hok
            subst hpe
            refine ⟨?_, rfl⟩
            rw [if_neg (by omega)]
          · intro e he
            simp at he
      · rw [if_neg hlen]
        constructor
        · intro plan hok
          have hpe := Except.ok.inj hok
          subst hpe
          refine ⟨?_, ?_⟩
          · rw [if_pos (by omega)]
          · unfold updateStatuses
            rw [if_pos (by simp only [List.length_map]; omega)]
        · intro e he
          simp at he

/-- Witness for C5 at a concrete successful two-order input. -/
theorem claim5_atomic_commit_witness :
    (GenerateDeliveryPlan false false false
        [⟨1, "shipping", 2, 3⟩, ⟨2, "shipping", 3, 4⟩] "r" 5).updateCalls =
      (if (DeliveryPlan.mk "r" 5 7 [⟨2, 3, 4⟩, ⟨1, 2, 3⟩]).orders.length = 0 then []
       else [((DeliveryPlan.mk "r" 5 7 [⟨2, 3, 4⟩, ⟨1, 2, 3⟩]).orders.map Order.orderID,
              "delivering")]) ∧
    (GenerateDeliveryPlan false false false
        [⟨1, "shipping", 2, 3⟩, ⟨2, "shipping", 3, 4⟩] "r" 5).db =
      updateStatuses [⟨1, "shipping", 2, 3⟩, ⟨2, "shipping", 3, 4⟩]
        ((DeliveryPlan.mk "r" 5 7 [⟨2, 3, 4⟩, ⟨1, 2, 3⟩]).orders.map Order.orderID)
        "delivering" :=
  (claim5_atomic_commit false false false
    [⟨1, "shipping", 2, 3⟩, ⟨2, "shipping", 3, 4⟩] "r" 5).1
    (DeliveryPlan.mk "r" 5 7 [⟨2, 3, 4⟩, ⟨1, 2, 3⟩]) rfl

/-- C6: if the fetch returns no shipping orders, or the capacity is 0 with
all (positive-weight) orders, `GenerateDeliveryPlan` returns the empty plan
with zero totals, issues no status-update call, and leaves the database
unchanged. -/
theorem claim6_empty_noop (db : List OrderRow) (rid : String) (c : Int) (uf : Bool)
    (h : getShippingOrders db = [] ∨
      (c = 0 ∧ ∀ o ∈ getShippingOrders db, 0 < o.weight)) :
    (GenerateDeliveryPlan false false uf db rid c).result =
        Except.ok { robotID := rid, totalWeight := 0, totalValue := 0, orders := [] } ∧
      (GenerateDeliveryPlan false false uf db rid c).updateCalls = [] ∧
      (GenerateDeliveryPlan false false uf db rid c).db = db := by
  have hsel : selectOrdersForDeliveryOptimized false (getShippingOrders db) rid c =
      Except.ok { robotID := rid, totalWeight := 0, totalValue := 0, orders := [] } := by
    rcases h with hemp | ⟨hc0, hwpos⟩
    · rw [hemp]
      exact optimized_empty false rid c
    · subst hc0
      by_cases hemp2 : getShippingOrders db = []
      · rw [hemp2]
        exact optimized_empty false rid 0
      · by_cases hbig : 500 < (getShippingOrders db).length ∨ (5000 : Int) < 0
        · rw [optimized_greedy false _ rid 0 hemp2 hbig,
            selectOrdersGreedy_zero _ rid hwpos]
        · have h500 : (getShippingOrders db).length ≤ 500 := by
            rcases Nat.lt_or_ge 500 (getShippingOrders db).length with hlt | hge
            · exact absurd (Or.inl hlt) hbig
            · exact hge
          rw [optimized_dp false _ rid 0 hemp2 h500 (by omega),
            selectOrdersDP_zero _ rid hwpos]
  unfold GenerateDeliveryPlan
  dsimp only
  rw [if_neg (by simp), hsel]
  exact ⟨rfl, rfl, rfl⟩

/-- Witness for C6: a pool with no shipping order. -/
theorem claim6_empty_noop_witness :
    (GenerateDeliveryPlan false false false [⟨1, "delivering", 2, 3⟩] "r" 7).result =
        Except.ok { robotID := "r", totalWeight := 0, totalValue := 0, orders := [] } ∧
      (GenerateDeliveryPlan false false false [⟨1, "delivering", 2, 3⟩] "r" 7).updateCalls = [] ∧
      (GenerateDeliveryPlan false false false [⟨1, "delivering", 2, 3⟩] "r" 7).db =
        [⟨1, "delivering", 2, 3⟩] :=
  claim6_empty_noop [⟨1, "delivering", 2, 3⟩] "r" 7 false (Or.inl rfl)
